import Mathlib

/-!
Verification of the `loopdown` audio-content package tool.

This file gives a shallow embedding of the parts of the code base that the
specification's checkable claims are about, and proves (or refutes) each
claim against that embedding:

* the human-readable byte formatter `bytes2hr` of
  `loopdown/utils/normalizers.py`, and the historical variant in
  `ldilib/utils.py`;
* the version prefix-floor comparison of `loopdown/utils/package_utils.py`;
* sentinel-file install detection (`found_sentinel_files`, the
  `is_installed` property of `AudioContentPackage`);
* the metadata normalizer `_generate_audio_package_dataclass_obj` with the
  `Size` model of `loopdown/models/size.py`;
* id-keyed package merging with mandatory precedence
  (`_merge_packages_by_id` / `_prefer_mandatory_pkg` of
  `base/package_processing_mixin.py`);
* download-path normalization (`normalize_package_download_path`) and
  caching-server URL rewriting (`normalize_caching_server_url`) of
  `loopdown/utils/normalizers.py`;
* the free-space preflight `_has_space_available` of
  `base/install_mixin.py`.

Numeric code is modelled over `ℚ`/`ℤ`/`ℕ` with exact arithmetic; on every
concrete input appearing in a theorem below the Python double-precision
evaluation performs only exact operations (integers and powers of two), so
the exact model agrees with the executed code there.  Python exceptions
(`IndexError`, `TypeError`) are modelled by `Option`/`Except` results.
-/

/-! ## Byte formatter

`loopdown/utils/normalizers.py`:

```
def bytes2hr(v, *, bs=1024):
    v, idx = float(v), 0
    suffixes = ("B", "KB", "MB", "GB", "TB", "PB")
    while v > bs and idx < len(suffixes) - 1:
        idx += 1
        v /= float(bs)
    return f"{v:.2f}{suffixes[idx]}"
```

`ldilib/utils.py` (historical revision) is identical except that the loop
guard is `idx < len(suffixes)` (no `- 1`), so `idx` can reach 6 and
`suffixes[idx]` can raise `IndexError`.

The `while` loop is modelled by `hrSteps` with an explicit fuel argument:
since `idx` starts at 0 and increases by exactly 1 per iteration, the guard
`idx < limit` is equivalent to starting with `fuel = limit` and stopping at
`fuel = 0`.  The current revision has `limit = 5`, the historical one
`limit = 6`.  `suffixes[idx]` is modelled by `List.get?`, whose `none`
result models Python's `IndexError`.
-/

/-- The suffix tuple shared (textually identical) by both revisions. -/
def SUFFIXES : List String := ["B", "KB", "MB", "GB", "TB", "PB"]

/-- Floor of a rational, computed directly on the numerator/denominator. -/
def ratFloor (q : ℚ) : ℤ := Int.fdiv q.num q.den

/-- Round to the nearest integer, ties to even: the rounding used by
Python's `format(v, ".2f")` on an exactly-representable value. -/
def roundHalfEven (q : ℚ) : ℤ :=
  let f : ℤ := ratFloor q
  let r : ℚ := q - f
  if r < 1 / 2 then f
  else if 1 / 2 < r then f + 1
  else if f % 2 = 0 then f else f + 1

/-- Model of Python `f"{v:.2f}"` for a non-negative exact value. -/
def fmt2f (q : ℚ) : String :=
  let c : ℤ := roundHalfEven (q * 100)
  let whole : ℤ := c / 100
  let frac : ℤ := c % 100
  let fracStr := if frac < 10 then "0" ++ toString frac else toString frac
  toString whole ++ "." ++ fracStr

/-- The `while v > bs and idx < limit` loop of `bytes2hr`, with
`fuel = limit - idx`; returns the final `(v, idx)`. -/
def hrSteps (bs : ℚ) : ℕ → ℚ → ℕ → ℚ × ℕ
  | 0, v, idx => (v, idx)
  | fuel + 1, v, idx =>
      if bs < v then hrSteps bs fuel (v / bs) (idx + 1) else (v, idx)

/-- `loopdown.utils.normalizers.bytes2hr`: loop guard
`idx < len(suffixes) - 1`, i.e. fuel 5. -/
def bytes2hr (v : ℚ) (bs : ℚ := 1024) : Option String :=
  let r := hrSteps bs 5 v 0
  (SUFFIXES.get? r.2).map (fun sfx => fmt2f r.1 ++ sfx)

/-- `ldilib.utils.bytes2hr` (historical): loop guard
`idx < len(suffixes)`, i.e. fuel 6.  For the integer inputs the claims
quantify over, `int(b)`/`float(v)` coincide and the arithmetic is the
same, so only the fuel differs from `bytes2hr`. -/
def ldilib_bytes2hr (b : ℚ) (bs : ℚ := 1024) : Option String :=
  let r := hrSteps bs 6 b 0
  (SUFFIXES.get? r.2).map (fun sfx => fmt2f r.1 ++ sfx)

/-- While the value fits below `1024 ^ (fuel + 1)`, one extra unit of fuel is
never consumed, because the guard `bs < v` fails before the fuel runs out. -/
theorem hrSteps_fuel_succ (f : ℕ) :
    ∀ (v : ℚ) (i : ℕ), v ≤ 1024 ^ (f + 1) →
      hrSteps 1024 (f + 1) v i = hrSteps 1024 f v i := by
  induction f with
  | zero =>
      intro v i h
      have hv : ¬ (1024 : ℚ) < v := not_lt.mpr (by simpa using h)
      simp [hrSteps, hv]
  | succ f ih =>
      intro v i h
      by_cases hv : (1024 : ℚ) < v
      · have hstep : v / 1024 ≤ 1024 ^ (f + 1) := by
          rw [div_le_iff₀ (by norm_num : (0 : ℚ) < 1024)]
          calc v ≤ 1024 ^ (f + 2) := h
          _ = 1024 ^ (f + 1) * 1024 := by ring
        simp only [hrSteps, if_pos hv]
        exact ih (v / 1024) (i + 1) hstep
      · simp [hrSteps, hv]

/-- When the value exceeds `1024 ^ fuel`, the loop consumes all its fuel:
the index advances by exactly `fuel` and the value is divided by
`1024 ^ fuel`. -/
theorem hrSteps_all_fuel (f : ℕ) :
    ∀ (v : ℚ) (i : ℕ), 1024 ^ f < v →
      hrSteps 1024 f v i = (v / 1024 ^ f, i + f) := by
  induction f with
  | zero => intro v i h; simp [hrSteps]
  | succ f ih =>
      intro v i h
      have hv : (1024 : ℚ) < v := by
        refine lt_of_le_of_lt ?_ h
        calc (1024 : ℚ) = 1024 ^ 1 := (pow_one _).symm
        _ ≤ 1024 ^ (f + 1) := pow_le_pow_right₀ (by norm_num) (by omega)
      have h2 : (1024 : ℚ) ^ f < v / 1024 := by
        rw [lt_div_iff₀ (by norm_num : (0 : ℚ) < 1024)]
        calc (1024 : ℚ) ^ f * 1024 = 1024 ^ (f + 1) := (pow_succ 1024 f).symm
        _ < v := h
      have harith : i + 1 + f = i + (f + 1) := by omega
      simp only [hrSteps, if_pos hv]
      rw [ih (v / 1024) (i + 1) h2, div_div, ← pow_succ', harith]

/-- C5.  The claim asserts `1024 → "1.00KB"`; the loop guard is the strict
`v > bs`, so an input of exactly 1024 is never divided and renders as
`"1024.00B"`. -/
theorem bytes2hr_1024_not_1KB :
    bytes2hr 1024 = some "1024.00B" ∧ bytes2hr 1024 ≠ some "1.00KB" := by
  have h : bytes2hr 1024 = some "1024.00B" := by
    norm_num [bytes2hr, hrSteps, SUFFIXES, fmt2f, roundHalfEven, ratFloor]; rfl
  exact ⟨h, by rw [h]; decide⟩

/-- C5 (amended).  Boundary cases of the byte formatter as the code computes
them: `0 → "0.00B"`, `1024 → "1024.00B"` (the strict guard `v > bs` leaves
1024 undivided), `1048576 → "1024.00KB"`. -/
theorem bytes2hr_boundaries :
    bytes2hr 0 = some "0.00B" ∧ bytes2hr 1024 = some "1024.00B" ∧
      bytes2hr 1048576 = some "1024.00KB" := by
  refine ⟨?_, ?_, ?_⟩ <;>
    · norm_num [bytes2hr, hrSteps, SUFFIXES, fmt2f, roundHalfEven, ratFloor]; rfl

/-- C10.  The two revisions are not equivalent: at `2 ^ 70` bytes the
historical `ldilib` formatter lets `idx` reach 6 and `suffixes[6]` raises
`IndexError` (modelled by `none`), while the current formatter caps the
index and returns `"1048576.00PB"`.  (For this input every intermediate
Python value is a power of two, so double-precision evaluation is exact and
agrees with the model.) -/
theorem ldilib_bytes2hr_overflow_diverges :
    ldilib_bytes2hr (2 ^ 70) = none ∧ bytes2hr (2 ^ 70) = some "1048576.00PB" := by
  constructor
  · have h6 : hrSteps 1024 6 ((2 : ℚ) ^ 70) 0 = ((2 : ℚ) ^ 70 / 1024 ^ 6, 0 + 6) :=
      hrSteps_all_fuel 6 _ 0 (by norm_num)
    rw [ldilib_bytes2hr]
    rw [h6]
    rfl
  · have h5 : hrSteps 1024 5 ((2 : ℚ) ^ 70) 0 = ((2 : ℚ) ^ 70 / 1024 ^ 5, 0 + 5) :=
      hrSteps_all_fuel 5 _ 0 (by norm_num)
    rw [bytes2hr]
    rw [h5]
    have hval : (2 : ℚ) ^ 70 / 1024 ^ 5 = 1048576 := by norm_num
    rw [hval]
    norm_num [SUFFIXES, fmt2f, roundHalfEven, ratFloor]; rfl

/-- C10 (amended).  On every byte count up to `1024 ^ 6` the historical
`ldilib` formatter and the current one return the same string: below that
bound the extra unit of loop fuel that distinguishes them is never
consumed. -/
theorem ldilib_bytes2hr_agrees_below_pow6 (n : ℕ) (h : n ≤ 1024 ^ 6) :
    ldilib_bytes2hr n = bytes2hr n := by
  have hq : (n : ℚ) ≤ 1024 ^ (5 + 1) := by exact_mod_cast h
  rw [ldilib_bytes2hr, bytes2hr, hrSteps_fuel_succ 5 n 0 hq]

/-- Witness for C10 (amended): at `1048576` bytes the hypothesis holds and
the two formatters agree. -/
theorem ldilib_bytes2hr_agrees_witness :
    ldilib_bytes2hr 1048576 = bytes2hr 1048576 :=
  ldilib_bytes2hr_agrees_below_pow6 1048576 (by norm_num)

/-! ## Version prefix-floor comparison

`loopdown/utils/package_utils.py`, `installed_version_satisfies_required_version`:
release-number tuples are compared after zero-padding or truncating the
installed tuple to the required tuple's length; `>=` on Python tuples is the
lexicographic order, modelled by `pyTupleGE`.  Tuples are modelled as
`List ℕ` (the `release` field of a parsed version).
-/

/-- Python `>=` on tuples of integers (lexicographic; a longer tuple that
extends the other is the greater one). -/
def pyTupleGE : List ℕ → List ℕ → Bool
  | _, [] => true
  | [], _ :: _ => false
  | a :: xs, b :: ys => if b < a then true else if a < b then false else pyTupleGE xs ys

/-- `installed_version_satisfies_required_version`: an empty required
release tuple is "no minimum"; otherwise the installed tuple is zero-padded
(if shorter) or truncated (if longer) to the required length and compared
with tuple `>=`. -/
def installed_version_satisfies_required_version (installed required : List ℕ) : Bool :=
  if required = [] then true
  else
    let instPfx :=
      if installed.length < required.length then
        installed ++ List.replicate (required.length - installed.length) 0
      else installed.take required.length
    pyTupleGE instPfx required

/-- The claim's description of the adjusted installed tuple: zero-padded or
truncated to the required tuple's length. -/
def releaseFloorTuple (installed : List ℕ) (n : ℕ) : List ℕ :=
  if installed.length < n then installed ++ List.replicate (n - installed.length) 0
  else installed.take n

/-- C6.  Version satisfaction is exactly: pad-or-truncate the installed
release tuple to the required length, then Python tuple `>=`; together with
the claim's three concrete cases. -/
theorem version_floor_semantics :
    (∀ installed required : List ℕ,
      installed_version_satisfies_required_version installed required =
        pyTupleGE (releaseFloorTuple installed required.length) required)
    ∧ installed_version_satisfies_required_version [2, 1, 0, 0] [2, 1] = true
    ∧ installed_version_satisfies_required_version [2, 0] [2, 1] = false
    ∧ installed_version_satisfies_required_version [2] [2, 0, 0] = true := by
  refine ⟨fun installed required => ?_, by decide, by decide, by decide⟩
  cases required with
  | nil => simp [installed_version_satisfies_required_version, releaseFloorTuple, pyTupleGE]
  | cons b bs => rfl

/-! ## Package entity and id-keyed merge

`loopdown/models/size.py` and `loopdown/models/package.py`.  `Size` is a
plain dataclass holding a `raw` value; Python performs no validation, so a
`None` obtained from `data.get(...)` on an incomplete metadata mapping is
stored as-is — `raw` is therefore modelled as `Option ℤ`, with `none` for
Python `None`.  Version values are modelled by their release tuples
(`Option (List ℕ)`, `none` for an undeclared version).
-/

structure Size where
  raw : Option ℤ := some 0
deriving DecidableEq

/-- `AudioContentPackage` after `__post_init__`: `package_id` stripped,
`file_check` normalized to a list, sizes wrapped in `Size`, `mandatory`
coerced to bool (`None → False`). -/
structure AudioContentPackage where
  download_name : String := ""
  package_id : String
  download_size : Size := {}
  file_check : List String := []
  installed_size : Size := {}
  mandatory : Bool := false
  version : Option (List ℕ) := none
deriving DecidableEq

/-- `_prefer_mandatory_pkg`: `mandatory=True` always wins; otherwise the
existing (earlier-seen) record is kept. -/
def prefer_mandatory_pkg (existing candidate : AudioContentPackage) : AudioContentPackage :=
  if existing.mandatory || candidate.mandatory then
    if existing.mandatory then existing else candidate
  else existing

/-- The id-keyed dict `merged` is modelled as an insertion-ordered
association list (Python dicts preserve insertion order and hold each key
once). -/
abbrev PkgDict := List (String × AudioContentPackage)

/-- Python dict assignment `d[k] = v`: replace the entry of an existing key
in place, else append the new pair. -/
def dictInsert : PkgDict → String → AudioContentPackage → PkgDict
  | [], k, v => [(k, v)]
  | (a, b) :: t, k, v => if a == k then (k, v) :: t else (a, b) :: dictInsert t k v

/-- Loop body of `_merge_packages_by_id`: `pkg.package_id not in merged`
is `lookup = none`; otherwise the existing entry is combined with the
incoming one by `_prefer_mandatory_pkg`. -/
def mergeStep (m : PkgDict) (pkg : AudioContentPackage) : PkgDict :=
  match m.lookup pkg.package_id with
  | none => dictInsert m pkg.package_id pkg
  | some existing => dictInsert m pkg.package_id (prefer_mandatory_pkg existing pkg)

/-- `_merge_packages_by_id(merged, incoming)` (the source mutates `merged`;
the result dict is returned here). -/
def merge_packages_by_id (merged : PkgDict) (incoming : List AudioContentPackage) : PkgDict :=
  incoming.foldl mergeStep merged

theorem prefer_mandatory_pkg_self (p : AudioContentPackage) :
    prefer_mandatory_pkg p p = p := by
  cases hp : p.mandatory <;> simp [prefer_mandatory_pkg, hp]

theorem prefer_mandatory_pkg_mandatory (e c : AudioContentPackage) :
    (prefer_mandatory_pkg e c).mandatory = (e.mandatory || c.mandatory) := by
  cases he : e.mandatory <;> cases hc : c.mandatory <;>
    simp [prefer_mandatory_pkg, he, hc]

theorem prefer_mandatory_pkg_eq_left (e c : AudioContentPackage)
    (h : e.mandatory = c.mandatory) : prefer_mandatory_pkg e c = e := by
  cases he : e.mandatory <;> rw [he] at h <;>
    simp [prefer_mandatory_pkg, he, ← h]

theorem dictInsert_lookup_self (d : PkgDict) (k : String) (v : AudioContentPackage) :
    (dictInsert d k v).lookup k = some v := by
  induction d with
  | nil => simp [dictInsert, List.lookup]
  | cons hd t ih =>
      obtain ⟨a, b⟩ := hd
      by_cases hak : a = k
      · subst hak; simp [dictInsert, List.lookup]
      · have h1 : (a == k) = false := beq_eq_false_iff_ne.mpr hak
        have h2 : (k == a) = false := beq_eq_false_iff_ne.mpr (Ne.symm hak)
        simp [dictInsert, List.lookup, h1, h2, ih]

theorem dictInsert_lookup_ne (d : PkgDict) (k : String) (v : AudioContentPackage)
    (k' : String) (h : k' ≠ k) : (dictInsert d k v).lookup k' = d.lookup k' := by
  induction d with
  | nil => simp [dictInsert, List.lookup, beq_eq_false_iff_ne.mpr h]
  | cons hd t ih =>
      obtain ⟨a, b⟩ := hd
      by_cases hak : a = k
      · subst hak
        simp [dictInsert, List.lookup, beq_eq_false_iff_ne.mpr h]
      · have h1 : (a == k) = false := beq_eq_false_iff_ne.mpr hak
        by_cases hk'a : k' = a
        · subst hk'a; simp [dictInsert, List.lookup, h1]
        · simp [dictInsert, List.lookup, h1, beq_eq_false_iff_ne.mpr hk'a, ih]

theorem dictInsert_eq_of_lookup (d : PkgDict) (k : String) (v : AudioContentPackage)
    (h : d.lookup k = some v) : dictInsert d k v = d := by
  induction d with
  | nil => simp [List.lookup] at h
  | cons hd t ih =>
      obtain ⟨a, b⟩ := hd
      by_cases hka : k = a
      · subst hka
        simp only [List.lookup, beq_self_eq_true, if_pos] at h
        obtain rfl : b = v := by simpa using h
        simp [dictInsert]
      · have h1 : (k == a) = false := beq_eq_false_iff_ne.mpr hka
        have h2 : (a == k) = false := beq_eq_false_iff_ne.mpr (Ne.symm hka)
        simp only [List.lookup, h1] at h
        simp [dictInsert, h2, ih h]

/-- C1.  Merging two records with the same `package_id` yields exactly one
entry for that id; its value is `_prefer_mandatory_pkg p₁ p₂`, which is
mandatory whenever the two flags differ, and is the earlier-seen record
`p₁` whenever the flags are equal. -/
theorem merge_mandatory_precedence (p₁ p₂ : AudioContentPackage)
    (hid : p₁.package_id = p₂.package_id) :
    merge_packages_by_id [] [p₁, p₂] = [(p₁.package_id, prefer_mandatory_pkg p₁ p₂)]
    ∧ (p₁.mandatory ≠ p₂.mandatory → (prefer_mandatory_pkg p₁ p₂).mandatory = true)
    ∧ (p₁.mandatory = p₂.mandatory → prefer_mandatory_pkg p₁ p₂ = p₁) := by
  refine ⟨?_, ?_, prefer_mandatory_pkg_eq_left p₁ p₂⟩
  · simp [merge_packages_by_id, mergeStep, dictInsert, List.lookup, ← hid]
  · intro hne
    rw [prefer_mandatory_pkg_mandatory]
    cases h1 : p₁.mandatory <;> cases h2 : p₂.mandatory <;> simp_all

/-- Two concrete records sharing an id, one mandatory and one optional. -/
def pkgManA : AudioContentPackage :=
  { download_name := "a1.pkg", package_id := "com.example.a", mandatory := true }

/-- See `pkgManA`. -/
def pkgOptA : AudioContentPackage :=
  { download_name := "a2.pkg", package_id := "com.example.a", mandatory := false }

/-- Witness for C1 at the concrete pair `pkgManA`/`pkgOptA`. -/
theorem merge_mandatory_precedence_witness :
    merge_packages_by_id [] [pkgManA, pkgOptA]
      = [(pkgManA.package_id, prefer_mandatory_pkg pkgManA pkgOptA)]
    ∧ (prefer_mandatory_pkg pkgManA pkgOptA).mandatory = true :=
  ⟨(merge_mandatory_precedence pkgManA pkgOptA rfl).1,
   (merge_mandatory_precedence pkgManA pkgOptA rfl).2.1 (by decide)⟩

/-! ### Merge algebra (idempotence and order independence)

The observable content of a merged dict, as far as the spec's merge claims
go, is which ids are present and with which mandatory flag; `lookupMand`
is that view.  `lookupMand_merge_packages_by_id` characterises a merge
through `combineView`, from which order independence follows.
-/

/-- The values of a dict, in insertion order. -/
def dictValues (d : PkgDict) : List AudioContentPackage := d.map Prod.snd

/-- Presence and mandatory flag of id `k` in a dict. -/
def lookupMand (d : PkgDict) (k : String) : Option Bool :=
  (d.lookup k).map AudioContentPackage.mandatory

/-- Presence and accumulated (or-ed) mandatory flag of id `k` over an
incoming package list. -/
def incomingView (l : List AudioContentPackage) (k : String) : Option Bool :=
  if l.any (fun p => p.package_id == k) then
    some (l.any (fun p => p.package_id == k && p.mandatory))
  else none

/-- How one merge combines the dict view with the incoming view. -/
def combineView : Option Bool → Option Bool → Option Bool
  | a, none => a
  | none, some b => some b
  | some a, some b => some (a || b)

theorem lookup_eq_of_nodup_mem (d : PkgDict) (hnd : (d.map Prod.fst).Nodup)
    (k : String) (v : AudioContentPackage) (hmem : (k, v) ∈ d) :
    d.lookup k = some v := by
  induction d with
  | nil => simp at hmem
  | cons hd t ih =>
      obtain ⟨a, b⟩ := hd
      rw [List.map_cons, List.nodup_cons] at hnd
      rcases List.mem_cons.mp hmem with heq | hmem'
      · obtain ⟨rfl, rfl⟩ := Prod.mk.injEq .. ▸ heq
        simp [List.lookup]
      · have hka : k ≠ a := by
          rintro rfl
          exact hnd.1 (List.mem_map.mpr ⟨(k, v), hmem', rfl⟩)
        simp [List.lookup, beq_eq_false_iff_ne.mpr hka, ih hnd.2 hmem']

theorem merge_packages_by_id_fixed (d : PkgDict) :
    ∀ l : List AudioContentPackage,
      (∀ p ∈ l, d.lookup p.package_id = some p) →
      merge_packages_by_id d l = d := by
  intro l
  induction l with
  | nil => intro _; rfl
  | cons p t ih =>
      intro h
      have hp := h p (List.mem_cons_self p t)
      have hstep : mergeStep d p = d := by
        rw [mergeStep, hp]
        show dictInsert d p.package_id (prefer_mandatory_pkg p p) = d
        rw [prefer_mandatory_pkg_self]
        exact dictInsert_eq_of_lookup d p.package_id p hp
      show List.foldl mergeStep (mergeStep d p) t = d
      rw [hstep]
      exact ih fun q hq => h q (List.mem_cons_of_mem p hq)

theorem combineView_some_incoming (a : Bool) (l : List AudioContentPackage) (k : String) :
    combineView (some a) (incomingView l k)
      = some (a || l.any (fun p => p.package_id == k && p.mandatory)) := by
  by_cases h : l.any (fun p => p.package_id == k)
  · simp [incomingView, h, combineView]
  · have hflag : l.any (fun p => p.package_id == k && p.mandatory) = false := by
      cases hx : l.any (fun p => p.package_id == k && p.mandatory)
      · rfl
      · obtain ⟨p, hp, hpk⟩ := List.any_eq_true.mp hx
        exact absurd (List.any_eq_true.mpr ⟨p, hp, (Bool.and_eq_true ..).mp hpk |>.1⟩) h
    simp [incomingView, h, combineView, hflag]

/-- One merge, seen through `lookupMand`: the incoming packages of id `k`
contribute their or-ed mandatory flags on top of the dict's entry. -/
theorem lookupMand_merge_packages_by_id (l : List AudioContentPackage) :
    ∀ (d : PkgDict) (k : String),
      lookupMand (merge_packages_by_id d l) k
        = combineView (lookupMand d k) (incomingView l k) := by
  induction l with
  | nil =>
      intro d k
      show lookupMand d k = combineView (lookupMand d k) (incomingView [] k)
      cases h : lookupMand d k <;> simp [incomingView, combineView, h]
  | cons p t ih =>
      intro d k
      show lookupMand (merge_packages_by_id (mergeStep d p) t) k = _
      rw [ih (mergeStep d p) k]
      by_cases hpk : p.package_id = k
      · subst hpk
        cases hl : d.lookup p.package_id with
        | none =>
            have h1 : lookupMand (mergeStep d p) p.package_id = some p.mandatory := by
              simp [mergeStep, hl, lookupMand, dictInsert_lookup_self]
            have h2 : lookupMand d p.package_id = none := by simp [lookupMand, hl]
            rw [h1, h2, combineView_some_incoming]
            simp [incomingView, List.any_cons, combineView]
        | some q =>
            have h1 : lookupMand (mergeStep d p) p.package_id
                = some (q.mandatory || p.mandatory) := by
              simp [mergeStep, hl, lookupMand, dictInsert_lookup_self,
                prefer_mandatory_pkg_mandatory]
            have h2 : lookupMand d p.package_id = some q.mandatory := by
              simp [lookupMand, hl]
            rw [h1, h2, combineView_some_incoming, combineView_some_incoming]
            simp [List.any_cons, Bool.or_assoc]
      · have hk : k ≠ p.package_id := Ne.symm hpk
        have h1 : lookupMand (mergeStep d p) k = lookupMand d k := by
          cases hl : d.lookup p.package_id <;>
            simp [mergeStep, hl, lookupMand, dictInsert_lookup_ne _ _ _ _ hk]
        have h2 : incomingView (p :: t) k = incomingView t k := by
          simp [incomingView, List.any_cons, beq_eq_false_iff_ne.mpr hpk]
        rw [h1, h2]

theorem foldl_merge_eq_flatten (gs : List (List AudioContentPackage)) :
    ∀ d : PkgDict, gs.foldl merge_packages_by_id d = merge_packages_by_id d gs.flatten := by
  induction gs with
  | nil => intro d; rfl
  | cons g gs ih =>
      intro d
      show gs.foldl merge_packages_by_id (merge_packages_by_id d g) = _
      rw [ih, List.flatten_cons, merge_packages_by_id, merge_packages_by_id,
        merge_packages_by_id, List.foldl_append]

theorem perm_any_eq {α : Type} {l₁ l₂ : List α} (h : l₁.Perm l₂) (f : α → Bool) :
    l₁.any f = l₂.any f := by
  rw [List.any_eq, List.any_eq, decide_eq_decide]
  exact exists_congr fun x => and_congr_left fun _ => h.mem_iff

theorem incomingView_perm {l₁ l₂ : List AudioContentPackage} (h : l₁.Perm l₂)
    (k : String) : incomingView l₁ k = incomingView l₂ k := by
  rw [incomingView, incomingView, perm_any_eq h, perm_any_eq h]

/-- C2.  (i) Merging a well-formed dict's own value set into it changes
nothing (idempotence, no size drift).  (ii) Merging the groups of a grouped
collection in any order yields the same ids with the same mandatory flags
as merging the ungrouped (flattened) collection directly. -/
theorem merge_idempotent_and_order_independent :
    (∀ d : PkgDict, (d.map Prod.fst).Nodup → (∀ kv ∈ d, kv.1 = kv.2.package_id) →
      merge_packages_by_id d (dictValues d) = d)
    ∧ (∀ gs gs' : List (List AudioContentPackage), gs.Perm gs' → ∀ k : String,
      lookupMand (gs'.foldl merge_packages_by_id []) k
        = lookupMand (merge_packages_by_id [] gs.flatten) k) := by
  constructor
  · intro d hnd hwf
    refine merge_packages_by_id_fixed d (dictValues d) fun p hp => ?_
    obtain ⟨⟨k, v⟩, hkv, rfl⟩ := List.mem_map.mp hp
    have hk : k = v.package_id := hwf (k, v) hkv
    exact lookup_eq_of_nodup_mem d hnd _ v (hk ▸ hkv)
  · intro gs gs' hperm k
    rw [foldl_merge_eq_flatten, lookupMand_merge_packages_by_id,
      lookupMand_merge_packages_by_id, incomingView_perm hperm.flatten]

/-- Witness for C2: a singleton well-formed dict re-merged with its own
values, and a two-group collection merged in both orders. -/
theorem merge_idempotent_and_order_independent_witness :
    merge_packages_by_id [("com.example.a", pkgManA)]
        (dictValues [("com.example.a", pkgManA)]) = [("com.example.a", pkgManA)]
    ∧ lookupMand ([[pkgOptA], [pkgManA]].foldl merge_packages_by_id []) "com.example.a"
        = lookupMand (merge_packages_by_id [] ([[pkgManA], [pkgOptA]].flatten)) "com.example.a" :=
  ⟨merge_idempotent_and_order_independent.1 _ (by decide) (by decide),
   merge_idempotent_and_order_independent.2 [[pkgManA], [pkgOptA]] [[pkgOptA], [pkgManA]]
     (List.Perm.swap _ _ _) "com.example.a"⟩

/-! ## Sentinel files and installed-state detection

`loopdown/utils/package_utils.py` / `loopdown/models/package.py`.  The
filesystem is modelled by a predicate `fsExists : String → Bool`
(`fsExists f` models `Path(f).expanduser().exists()`), and the platform
package database (`pkgutil --pkg-info-plist`) by
`db : String → Option (List ℕ)` giving the installed release tuple of a
package id, `none` when `pkg_info` finds nothing.
-/

/-- `found_sentinel_files`: `any(Path(f).expanduser().exists() for f in files)`. -/
def found_sentinel_files (fsExists : String → Bool) (files : List String) : Bool :=
  files.any fsExists

/-- The `has_sentinel_files` property of `AudioContentPackage`. -/
def has_sentinel_files (fsExists : String → Bool) (p : AudioContentPackage) : Bool :=
  found_sentinel_files fsExists p.file_check

/-- `installed_pkg_version`: the release tuple reported by the package
database, or `0.0.0` when no package info is found. -/
def installed_pkg_version (db : String → Option (List ℕ)) (pkg_id : String) : List ℕ :=
  (db pkg_id).getD [0, 0, 0]

/-- The `installed_version` property: `0.0.0` when no sentinel file
exists, else the package-database version. -/
def installed_version (fsExists : String → Bool) (db : String → Option (List ℕ))
    (p : AudioContentPackage) : List ℕ :=
  if ¬ has_sentinel_files fsExists p then [0, 0, 0]
  else installed_pkg_version db p.package_id

/-- The `is_installed` property: sentinel files alone when no version is
declared, else the prefix-floor version comparison. -/
def is_installed (fsExists : String → Bool) (db : String → Option (List ℕ))
    (p : AudioContentPackage) : Bool :=
  match p.version with
  | none => has_sentinel_files fsExists p
  | some v =>
      installed_version_satisfies_required_version (installed_version fsExists db p) v

/-- A filesystem on which exactly one of two sentinel paths exists. -/
def sentinelFs : String → Bool := fun f => f == "/Library/Audio/a"

/-- A versionless package with two sentinel paths. -/
def pkgTwoSentinels : AudioContentPackage :=
  { download_name := "s.pkg", package_id := "com.example.s",
    file_check := ["/Library/Audio/a", "/Library/Audio/b"] }

/-- C3 (counterexample).  `found_sentinel_files` uses `any(...)`, not
`all(...)`: with one of two sentinel paths present, `is_installed` is true
although not all sentinel files exist, refuting the claim's
"all ... exist". -/
theorem is_installed_any_not_all :
    pkgTwoSentinels.version = none
    ∧ is_installed sentinelFs (fun _ => none) pkgTwoSentinels = true
    ∧ pkgTwoSentinels.file_check.all sentinelFs = false := by
  refine ⟨rfl, rfl, rfl⟩

/-- C3 (amended).  For a package with no declared version, `is_installed`
is true exactly when at least one sentinel path exists. -/
theorem is_installed_iff_any_sentinel (fsExists : String → Bool)
    (db : String → Option (List ℕ)) (p : AudioContentPackage)
    (h : p.version = none) :
    is_installed fsExists db p = p.file_check.any fsExists := by
  rw [is_installed, h]
  rfl

/-- Witness for C3 (amended) at the concrete package and filesystem. -/
theorem is_installed_iff_any_sentinel_witness :
    is_installed sentinelFs (fun _ => none) pkgTwoSentinels
      = pkgTwoSentinels.file_check.any sentinelFs :=
  is_installed_iff_any_sentinel sentinelFs (fun _ => none) pkgTwoSentinels rfl

/-! ## Metadata normalization and size arithmetic

`_generate_audio_package_dataclass_obj` builds the dataclass from
`{mapped: data.get(attr) for ...}` — `dict.get` yields `None` for a
missing (or null) key, and that `None` is passed to the dataclass
constructor, overriding the field's default.  `__post_init__` then stores
`Size(self.download_size)`, and the `Size` dataclass keeps `raw` exactly
as given (`None` included).  `Size.__iadd__`/`__add__` compute
`self.raw + other.raw`, which raises `TypeError` when either side is
`None`; `size_add` returns `none` for that case.
-/

/-- A raw metadata record (the keys of `PackageConsts.DATACLASS_ATTRS_MAP`);
`Option` fields model keys that may be missing or null. -/
structure RawPkgData where
  DownloadName : String
  PackageID : String
  DownloadSize : Option ℤ
  FileCheck : List String
  InstalledSize : Option ℤ
  IsMandatory : Option Bool
  PackageVersion : Option (List ℕ)

/-- Python `str.strip()`. -/
def pyStrip (s : String) : String :=
  ⟨((s.data.dropWhile Char.isWhitespace).reverse.dropWhile Char.isWhitespace).reverse⟩

/-- `_generate_audio_package_dataclass_obj` composed with `__post_init__`:
sizes are wrapped as `Size(value)` (a missing value stays `none` — nothing
turns it into 0), `mandatory` becomes `bool(value)` (`None → False`). -/
def generate_audio_package_dataclass_obj (data : RawPkgData) : AudioContentPackage :=
  { download_name := data.DownloadName
    package_id := pyStrip data.PackageID
    download_size := ⟨data.DownloadSize⟩
    file_check := data.FileCheck
    installed_size := ⟨data.InstalledSize⟩
    mandatory := data.IsMandatory.getD false
    version := data.PackageVersion }

/-- `Size.__add__` / `__iadd__`: `raw + raw`, a `TypeError` (`none`) when
either side is Python `None`. -/
def size_add (a b : Size) : Option Size :=
  match a.raw, b.raw with
  | some x, some y => some ⟨some (x + y)⟩
  | _, _ => none

/-- `BucketStats` of `loopdown/models/size.py`. -/
structure BucketStats where
  count : ℕ := 0
  down : Size := {}
  inst : Size := {}
deriving DecidableEq

/-- `BucketStats.add`: count the package and accumulate both sizes. -/
def bucket_add (b : BucketStats) (p : AudioContentPackage) : Option BucketStats :=
  match size_add b.down p.download_size, size_add b.inst p.installed_size with
  | some d, some i => some { count := b.count + 1, down := d, inst := i }
  | _, _ => none

/-- `BucketStats.__add__`. -/
def bucket_combine (x y : BucketStats) : Option BucketStats :=
  match size_add x.down y.down, size_add x.inst y.inst with
  | some d, some i => some { count := x.count + y.count, down := d, inst := i }
  | _, _ => none

/-- A metadata record whose size keys are missing. -/
def rawMissingSizes : RawPkgData :=
  { DownloadName := "m.pkg", PackageID := "com.example.m", DownloadSize := none,
    FileCheck := [], InstalledSize := none, IsMandatory := some true,
    PackageVersion := none }

/-- C4.  A record with no `DownloadSize`/`InstalledSize` key does *not*
normalize to a zero-byte `Size`: the `None` from `data.get` is stored as
`Size(raw=None)`, and bucket accumulation over that package raises
`TypeError` (`none`). -/
theorem missing_size_reaches_size_arithmetic :
    (generate_audio_package_dataclass_obj rawMissingSizes).download_size.raw = none
    ∧ (generate_audio_package_dataclass_obj rawMissingSizes).installed_size.raw = none
    ∧ bucket_add {} (generate_audio_package_dataclass_obj rawMissingSizes) = none := by
  refine ⟨rfl, rfl, rfl⟩

/-! ## Space preflight

`_has_space_available` of `base/install_mixin.py`, with
`_generate_bucket_stats_cache` of `base/package_processing_mixin.py`.
The free space reported by the OS is a parameter `available`; `sys.exit(2)`
is modelled by `Except.error ()`, a propagated `TypeError` by the outer
`none`.  `self.args.required`/`self.args.optional` are the booleans
`want_req`/`want_opt`.
-/

/-- `_add_pkg_for_processing`: a package is resolved for processing when
its flag matches a requested bucket. -/
def add_pkg_for_processing (required optional : Bool) (pkg : AudioContentPackage) : Bool :=
  (pkg.mandatory && required) || (!pkg.mandatory && optional)

/-- Loop body of `_generate_bucket_stats_cache`. -/
def bucketStep (want_req want_opt : Bool) (acc : Option (BucketStats × BucketStats))
    (pkg : AudioContentPackage) : Option (BucketStats × BucketStats) :=
  match acc with
  | none => none
  | some (req, opt) =>
      if want_req && pkg.mandatory then (bucket_add req pkg).map (fun r => (r, opt))
      else if want_opt && !pkg.mandatory then (bucket_add opt pkg).map (fun o => (req, o))
      else some (req, opt)

/-- `_generate_bucket_stats_cache`: fold the packages into a required and
an optional bucket. -/
def generate_bucket_stats_cache (want_req want_opt : Bool)
    (packages : List AudioContentPackage) : Option (BucketStats × BucketStats) :=
  packages.foldl (bucketStep want_req want_opt) (some ({}, {}))

/-- `_has_space_available`: `total = req + opt`,
`tot_reqd_space = total.down + total.inst`,
`has_space = available > tot_reqd_space`; `sys.exit(2)` when neither dry
run nor enough space, else `(has_space, tot_reqd_space, available)`. -/
def has_space_available (dry_run want_req want_opt : Bool) (available : ℤ)
    (packages : List AudioContentPackage) : Option (Except Unit (Bool × ℤ × ℤ)) :=
  match generate_bucket_stats_cache want_req want_opt packages with
  | none => none
  | some (req, opt) =>
      match bucket_combine req opt with
      | none => none
      | some total =>
          match size_add total.down total.inst with
          | none => none
          | some tot =>
              match tot.raw with
              | none => none
              | some t =>
                  if !dry_run && !(decide (t < available)) then some (Except.error ())
                  else some (Except.ok (decide (t < available), t, available))

/-- The total byte requirement a package contributes (download plus
installed), defined for packages whose sizes are concrete. -/
def pkgRequiredBytes (p : AudioContentPackage) : ℤ :=
  p.download_size.raw.getD 0 + p.installed_size.raw.getD 0

/-- The total required bytes of a bucket accumulator, computed the way
`_has_space_available` computes it. -/
def totalRequiredView (acc : Option (BucketStats × BucketStats)) : Option ℤ :=
  match acc with
  | none => none
  | some (req, opt) =>
      match bucket_combine req opt with
      | none => none
      | some total =>
          match size_add total.down total.inst with
          | none => none
          | some tot => tot.raw

theorem totalRequiredView_bucketStep (wr wo : Bool)
    (acc : Option (BucketStats × BucketStats)) (p : AudioContentPackage)
    (hsel : add_pkg_for_processing wr wo p = true)
    (hdl : p.download_size.raw.isSome = true)
    (hil : p.installed_size.raw.isSome = true) :
    totalRequiredView (bucketStep wr wo acc p)
      = (totalRequiredView acc).map (· + pkgRequiredBytes p) := by
  obtain ⟨dv, hdv⟩ := Option.isSome_iff_exists.mp hdl
  obtain ⟨iv, hiv⟩ := Option.isSome_iff_exists.mp hil
  cases acc with
  | none => rfl
  | some ro =>
      obtain ⟨req, opt⟩ := ro
      cases hm : p.mandatory with
      | true =>
          have hwr : wr = true := by
            simpa [add_pkg_for_processing, hm] using hsel
          subst hwr
          rcases hra : req.down.raw with _ | a <;> rcases hrb : req.inst.raw with _ | b <;>
            rcases hoc : opt.down.raw with _ | c <;> rcases hod : opt.inst.raw with _ | d <;>
              simp [bucketStep, bucket_add, size_add, bucket_combine, totalRequiredView,
                pkgRequiredBytes, hm, hdv, hiv, hra, hrb, hoc, hod] <;> ring
      | false =>
          have hwo : wo = true := by
            simpa [add_pkg_for_processing, hm] using hsel
          subst hwo
          by_cases hwr : wr = true
          all_goals
            rcases hra : req.down.raw with _ | a <;> rcases hrb : req.inst.raw with _ | b <;>
              rcases hoc : opt.down.raw with _ | c <;> rcases hod : opt.inst.raw with _ | d <;>
                simp [bucketStep, bucket_add, size_add, bucket_combine, totalRequiredView,
                  pkgRequiredBytes, hm, hwr, hdv, hiv, hra, hrb, hoc, hod] <;> ring

theorem totalRequiredView_fold (wr wo : Bool) :
    ∀ (pkgs : List AudioContentPackage) (acc : Option (BucketStats × BucketStats)),
      (∀ p ∈ pkgs, add_pkg_for_processing wr wo p = true
        ∧ p.download_size.raw.isSome = true ∧ p.installed_size.raw.isSome = true) →
      totalRequiredView (pkgs.foldl (bucketStep wr wo) acc)
        = (totalRequiredView acc).map (· + (pkgs.map pkgRequiredBytes).sum) := by
  intro pkgs
  induction pkgs with
  | nil =>
      intro acc _
      cases h : totalRequiredView acc <;> simp [h]
  | cons p t ih =>
      intro acc h
      obtain ⟨hsel, hdl, hil⟩ := h p (List.mem_cons_self p t)
      have ht := ih (bucketStep wr wo acc p) fun q hq => h q (List.mem_cons_of_mem p hq)
      rw [List.foldl_cons] at *
      rw [ht, totalRequiredView_bucketStep wr wo acc p hsel hdl hil]
      cases hv : totalRequiredView acc <;> simp [hv, add_assoc]

theorem has_space_available_eq_view (dry wr wo : Bool) (avail : ℤ)
    (pkgs : List AudioContentPackage) :
    has_space_available dry wr wo avail pkgs
      = match totalRequiredView (generate_bucket_stats_cache wr wo pkgs) with
        | none => none
        | some t =>
            if !dry && !(decide (t < avail)) then some (Except.error ())
            else some (Except.ok (decide (t < avail), t, avail)) := by
  cases hgen : generate_bucket_stats_cache wr wo pkgs with
  | none => simp [has_space_available, totalRequiredView, hgen]
  | some ro =>
      obtain ⟨req, opt⟩ := ro
      cases hc : bucket_combine req opt with
      | none => simp [has_space_available, totalRequiredView, hgen, hc]
      | some total =>
          cases hs : size_add total.down total.inst with
          | none => simp [has_space_available, totalRequiredView, hgen, hc, hs]
          | some tot =>
              cases hr : tot.raw <;>
                simp [has_space_available, totalRequiredView, hgen, hc, hs, hr]

/-- The required-mandatory 600-byte package of the claim's scenario. -/
def pkg600 : AudioContentPackage :=
  { download_name := "b.pkg", package_id := "com.example.b",
    download_size := ⟨some 350⟩, installed_size := ⟨some 250⟩, mandatory := true }

/-- C8.  The preflight sums download plus installed bytes over every
resolved package (each resolved package passes `_add_pkg_for_processing`,
so it lands in exactly one requested bucket) and compares the sum against
available space; with `available = 500` and a resolved set requiring 600
bytes, a non-dry run exits (`Except.error`, before any transfer — the
caller runs this before its download loop) while a dry run reports the
shortfall (`has_space = false`) without aborting. -/
theorem space_preflight :
    (∀ (dry wr wo : Bool) (avail : ℤ) (pkgs : List AudioContentPackage),
      (∀ p ∈ pkgs, add_pkg_for_processing wr wo p = true
        ∧ p.download_size.raw.isSome = true ∧ p.installed_size.raw.isSome = true) →
      has_space_available dry wr wo avail pkgs
        = (if !dry && !(decide ((pkgs.map pkgRequiredBytes).sum < avail))
           then some (Except.error ())
           else some (Except.ok
             (decide ((pkgs.map pkgRequiredBytes).sum < avail),
               (pkgs.map pkgRequiredBytes).sum, avail))))
    ∧ has_space_available false true true 500 [pkg600] = some (Except.error ())
    ∧ has_space_available true true true 500 [pkg600]
        = some (Except.ok (false, 600, 500)) := by
  refine ⟨?_, rfl, rfl⟩
  intro dry wr wo avail pkgs h
  rw [has_space_available_eq_view, generate_bucket_stats_cache,
    totalRequiredView_fold wr wo pkgs (some ({}, {})) h]
  have h0 : totalRequiredView (some ({}, {})) = some 0 := rfl
  rw [h0]
  simp

/-- Witness for C8's quantified part, at the empty resolved set. -/
theorem space_preflight_witness :
    has_space_available false true true 500 [] = some (Except.ok (true, 0, 500)) := by
  have h := space_preflight.1 false true true 500 [] (by simp)
  simpa using h

/-! ## Download-path normalization

`normalize_package_download_path` of `loopdown/utils/normalizers.py`:

```
basename = Path(name).name
if AppleConsts.PATH_2013.value in name:
    return f"{AppleConsts.PATH_2013.value}/{basename}"
return f"{AppleConsts.PATH_2016.value}/{basename}"
```

Strings are modelled as `List Char`; `x in y` is `<:+:` (substring =
infix).  `Path(name).name` is the last of the path components obtained by
splitting on `'/'` and dropping empty and `"."` components (`pathlib`
parses exactly so; the root of an absolute path never survives as the
final component), or `""` when no component remains.
-/

/-- `AppleConsts.PATH_2013` (the legacy-content marker). -/
def PATH_2013 : List Char := "lp10_ms3_content_2013".toList

/-- `AppleConsts.PATH_2016`. -/
def PATH_2016 : List Char := "lp10_ms3_content_2016".toList

/-- Split on `'/'` (keeping empty pieces, like `str.split("/")`). -/
def splitSlash : List Char → List (List Char)
  | [] => [[]]
  | c :: cs =>
      if c = '/' then [] :: splitSlash cs
      else
        match splitSlash cs with
        | [] => [[c]]
        | p :: ps => (c :: p) :: ps

/-- The components `pathlib` keeps: non-empty and not `"."`. -/
def pathParts (l : List Char) : List (List Char) :=
  (splitSlash l).filter fun p => decide (p ≠ [] ∧ p ≠ ['.'])

/-- `Path(name).name`. -/
def pathBasename (l : List Char) : List Char := (pathParts l).getLast?.getD []

/-- `normalize_package_download_path`. -/
def normalize_package_download_path (name : List Char) : List Char :=
  if PATH_2013 <:+: name then PATH_2013 ++ '/' :: pathBasename name
  else PATH_2016 ++ '/' :: pathBasename name

theorem splitSlash_ne_nil : ∀ l : List Char, splitSlash l ≠ [] := by
  intro l
  cases l with
  | nil => simp [splitSlash]
  | cons c cs =>
      by_cases hc : c = '/'
      · simp [splitSlash, hc]
      · cases h : splitSlash cs with
        | nil => simp [splitSlash, hc, h]
        | cons p ps => simp [splitSlash, hc, h]

theorem splitSlash_no_slash :
    ∀ (l : List Char) (p : List Char), p ∈ splitSlash l → '/' ∉ p := by
  intro l
  induction l with
  | nil =>
      intro p hp
      simp only [splitSlash, List.mem_singleton] at hp
      subst hp; simp
  | cons c cs ih =>
      intro p hp
      by_cases hc : c = '/'
      · subst hc
        simp only [splitSlash, if_true, List.mem_cons] at hp
        rcases hp with rfl | hp
        · simp
        · exact ih p hp
      · cases h : splitSlash cs with
        | nil => exact absurd h (splitSlash_ne_nil cs)
        | cons q qs =>
            simp only [splitSlash, if_neg hc, h, List.mem_cons] at hp
            rcases hp with rfl | hq
            · intro hmem
              rcases List.mem_cons.mp hmem with h7 | h7
              · exact hc h7.symm
              · exact ih q (h ▸ List.mem_cons_self q qs) h7
            · exact ih p (h ▸ List.mem_cons_of_mem q hq)

theorem splitSlash_head_tail :
    ∀ (l : List Char) (p : List Char) (ps : List (List Char)),
      splitSlash l = p :: ps → p <+: l ∧ ∀ q ∈ ps, q <:+: l := by
  intro l
  induction l with
  | nil =>
      intro p ps h
      simp only [splitSlash, List.cons.injEq] at h
      obtain ⟨rfl, rfl⟩ := h
      exact ⟨List.nil_prefix, by simp⟩
  | cons c cs ih =>
      intro p ps h
      by_cases hc : c = '/'
      · subst hc
        simp only [splitSlash, if_true, List.cons.injEq] at h
        obtain ⟨h1, h2⟩ := h
        subst h1; subst h2
        refine ⟨List.nil_prefix, fun q hq => ?_⟩
        cases hcs : splitSlash cs with
        | nil => exact absurd hcs (splitSlash_ne_nil cs)
        | cons q₀ qs₀ =>
            have hih := ih q₀ qs₀ hcs
            rw [hcs] at hq
            rcases List.mem_cons.mp hq with rfl | hq'
            · exact List.infix_cons hih.1.isInfix
            · exact List.infix_cons (hih.2 q hq')
      · cases hcs : splitSlash cs with
        | nil => exact absurd hcs (splitSlash_ne_nil cs)
        | cons q₀ qs₀ =>
            simp only [splitSlash, if_neg hc, hcs, List.cons.injEq] at h
            obtain ⟨h1, h2⟩ := h
            subst h1; subst h2
            have hih := ih q₀ qs₀ hcs
            refine ⟨List.cons_prefix_cons.mpr ⟨rfl, hih.1⟩, fun q hq => ?_⟩
            exact List.infix_cons (hih.2 q hq)

theorem splitSlash_append (xs : List Char) :
    ∀ (l p : List Char) (ps : List (List Char)), '/' ∉ xs →
      splitSlash l = p :: ps → splitSlash (xs ++ l) = (xs ++ p) :: ps := by
  induction xs with
  | nil => intro l p ps _ h; simpa using h
  | cons x xs ih =>
      intro l p ps hx h
      have hx' : x ≠ '/' := fun hh => hx (hh ▸ List.mem_cons_self x xs)
      have hxs : '/' ∉ xs := fun hh => hx (List.mem_cons_of_mem x hh)
      have hr := ih l p ps hxs h
      simp [splitSlash, hx', hr]

theorem splitSlash_of_no_slash (b : List Char) (hb : '/' ∉ b) : splitSlash b = [b] := by
  have h := splitSlash_append b [] [] [] hb rfl
  simpa using h

theorem pathBasename_no_slash (l : List Char) : '/' ∉ pathBasename l := by
  rw [pathBasename]
  cases h : (pathParts l).getLast? with
  | none => simp
  | some p =>
      have hp : p ∈ pathParts l := List.mem_of_getLast?_eq_some h
      simp only [Option.getD_some]
      exact splitSlash_no_slash l p (List.mem_of_mem_filter hp)

theorem pathBasename_ne_dot (l : List Char) : pathBasename l ≠ ['.'] := by
  rw [pathBasename]
  cases h : (pathParts l).getLast? with
  | none => simp
  | some p =>
      have hp : p ∈ pathParts l := List.mem_of_getLast?_eq_some h
      have hdec := List.of_mem_filter hp
      simp only [Option.getD_some]
      exact (of_decide_eq_true hdec).2

theorem pathBasename_occurs (l : List Char) (h : pathBasename l ≠ []) :
    pathBasename l <:+: l := by
  rw [pathBasename]
  cases hg : (pathParts l).getLast? with
  | none => rw [pathBasename, hg] at h; simp at h
  | some p =>
      have hp : p ∈ pathParts l := List.mem_of_getLast?_eq_some hg
      have hmem : p ∈ splitSlash l := List.mem_of_mem_filter hp
      simp only [Option.getD_some]
      cases hs : splitSlash l with
      | nil => exact absurd hs (splitSlash_ne_nil l)
      | cons q qs =>
          have hqi := splitSlash_head_tail l q qs hs
          rw [hs] at hmem
          rcases List.mem_cons.mp hmem with rfl | hin
          · exact hqi.1.isInfix
          · exact hqi.2 p hin

theorem pathBasename_dir_append (dir b : List Char) (hd : '/' ∉ dir)
    (hdn : dir ≠ []) (hdd : dir ≠ ['.']) (hb : '/' ∉ b) (hbn : b ≠ [])
    (hbd : b ≠ ['.']) : pathBasename (dir ++ '/' :: b) = b := by
  have h1 : splitSlash ('/' :: b) = [] :: [b] := by
    simp [splitSlash, splitSlash_of_no_slash b hb]
  have h2 := splitSlash_append dir ('/' :: b) [] [b] hd h1
  rw [List.append_nil] at h2
  rw [pathBasename, pathParts, h2]
  have hf : List.filter (fun p => decide (p ≠ [] ∧ p ≠ ['.'])) [dir, b] = [dir, b] := by
    simp [hdn, hdd, hbn, hbd]
  rw [hf]
  simp

theorem prefix_through_sep :
    ∀ m : List Char, '/' ∉ m → ∀ xs ys : List Char,
      m <+: xs ++ '/' :: ys → m <+: xs := by
  intro m
  induction m with
  | nil => intro _ xs ys _; exact List.nil_prefix
  | cons a m' ih =>
      intro hm xs ys h
      have ha : a ≠ '/' := fun hh => hm (hh ▸ List.mem_cons_self a m')
      have hm' : '/' ∉ m' := fun hh => hm (List.mem_cons_of_mem a hh)
      cases xs with
      | nil =>
          rw [List.nil_append] at h
          exact absurd (List.cons_prefix_cons.mp h).1 ha
      | cons x xs' =>
          rw [List.cons_append] at h
          obtain ⟨h1, h2⟩ := List.cons_prefix_cons.mp h
          exact List.cons_prefix_cons.mpr ⟨h1, ih hm' xs' ys h2⟩

/-- A slash-free pattern occurs in `xs ++ '/' :: ys` exactly when it occurs
in `xs` or in `ys`: it cannot straddle the separator. -/
theorem infix_through_sep (m : List Char) (hm : '/' ∉ m) :
    ∀ xs ys : List Char, (m <:+: xs ++ '/' :: ys ↔ m <:+: xs ∨ m <:+: ys) := by
  intro xs
  induction xs with
  | nil =>
      intro ys
      constructor
      · intro h
        rw [List.nil_append] at h
        rcases List.infix_cons_iff.mp h with hpre | hinf
        · have h0 := prefix_through_sep m hm [] ys (by simpa using hpre)
          rw [List.prefix_nil] at h0
          exact Or.inl (by simp [h0])
        · exact Or.inr hinf
      · rintro (h | h)
        · rw [List.infix_nil] at h
          simp [h]
        · simpa using List.infix_cons h
  | cons x xs' ih =>
      intro ys
      constructor
      · intro h
        rw [List.cons_append] at h
        rcases List.infix_cons_iff.mp h with hpre | hinf
        · have h0 := prefix_through_sep m hm (x :: xs') ys (by rw [List.cons_append]; exact hpre)
          exact Or.inl h0.isInfix
        · rcases (ih ys).mp hinf with h1 | h1
          · exact Or.inl (List.infix_cons h1)
          · exact Or.inr h1
      · rintro (h | h)
        · exact h.trans (List.prefix_append _ _).isInfix
        · exact h.trans ((List.suffix_cons '/' ys).trans (List.suffix_append _ _)).isInfix

/-- C7 (counterexample).  Normalization is not idempotent on every string:
the empty download name (its basename is empty) normalizes to
`"lp10_ms3_content_2016/"`, whose basename is `"lp10_ms3_content_2016"`,
so a second application appends that component again. -/
theorem normalize_download_path_not_idempotent :
    normalize_package_download_path (normalize_package_download_path [])
      ≠ normalize_package_download_path [] := by decide

/-- C7 (amended).  The marker cases hold for every name, and normalization
is idempotent on every name whose basename is non-empty (every real
`DownloadName`); only names with an empty basename — `""`, `"/"`, `"."`
and the like — escape idempotence. -/
theorem normalize_download_path_spec :
    (∀ name : List Char, PATH_2013 <:+: name →
      normalize_package_download_path name = PATH_2013 ++ '/' :: pathBasename name)
    ∧ (∀ name : List Char, ¬ PATH_2013 <:+: name →
      normalize_package_download_path name = PATH_2016 ++ '/' :: pathBasename name)
    ∧ (∀ name : List Char, pathBasename name ≠ [] →
      normalize_package_download_path (normalize_package_download_path name)
        = normalize_package_download_path name) := by
  refine ⟨fun name h => if_pos h, fun name h => if_neg h, fun name hb => ?_⟩
  have hslash : '/' ∉ pathBasename name := pathBasename_no_slash name
  have hdot : pathBasename name ≠ ['.'] := pathBasename_ne_dot name
  by_cases h13 : PATH_2013 <:+: name
  · have hn : normalize_package_download_path name
        = PATH_2013 ++ '/' :: pathBasename name := if_pos h13
    have hc : PATH_2013 <:+: PATH_2013 ++ '/' :: pathBasename name :=
      (List.prefix_append _ _).isInfix
    rw [hn, normalize_package_download_path, if_pos hc,
      pathBasename_dir_append _ _ (by decide) (by decide) (by decide) hslash hb hdot]
  · have hn : normalize_package_download_path name
        = PATH_2016 ++ '/' :: pathBasename name := if_neg h13
    have hnc : ¬ PATH_2013 <:+: PATH_2016 ++ '/' :: pathBasename name := by
      rw [infix_through_sep PATH_2013 (by decide)]
      rintro (h | h)
      · revert h; decide
      · exact h13 (h.trans (pathBasename_occurs name hb))
    rw [hn, normalize_package_download_path, if_neg hnc,
      pathBasename_dir_append _ _ (by decide) (by decide) (by decide) hslash hb hdot]

/-! ## Caching-server URL rewriting

`normalize_caching_server_url` of `loopdown/utils/normalizers.py` and
`_generate_url_and_dest` / `_resolve_server` of `base/download_mixin.py`.
When a caching proxy is active the server string is
`normalize_caching_server_url(host)` — either computed at argument-parse
time (the `CachingServer` argparse action) or after auto-extraction — and
each package URL is then `f"{server}/{pkg.download_path}"`.

`urllib.parse.urlparse`/`urlunparse` are modelled for the URL shapes that
reach this code (validated absolute `scheme://netloc[/path][?query]`
strings, which is what the URL validator admits and what the Apple
constant is); `posixpath.normpath` is modelled in full.
-/

/-- Split a character list at the first occurrence of `sep`, returning the
parts before and after it. -/
def splitOnce (sep : List Char) : List Char → Option (List Char × List Char)
  | [] => if sep.isPrefixOf ([] : List Char) then some ([], []) else none
  | c :: cs =>
      if sep.isPrefixOf (c :: cs) then some ([], (c :: cs).drop sep.length)
      else
        match splitOnce sep cs with
        | none => none
        | some (a, b) => some (c :: a, b)

/-- The fields of `urllib.parse.urlparse` this code reads (params and
fragment never occur in the inputs). -/
structure ParsedUrl where
  scheme : String
  netloc : String
  path : String
  query : String

/-- `urllib.parse.urlparse` on `scheme://netloc[/path][?query]` inputs:
the netloc runs to the first `/` or `?`, the path to the first `?`. -/
def urlparse (url : String) : ParsedUrl :=
  match splitOnce "://".data url.data with
  | none =>
      let path := url.data.takeWhile (fun c => !(c = '?'))
      { scheme := "", netloc := "",
        path := ⟨path⟩, query := ⟨(url.data.drop path.length).drop 1⟩ }
  | some (sch, rest) =>
      let netloc := rest.takeWhile (fun c => !(c = '/' || c = '?'))
      let rest2 := rest.drop netloc.length
      let path := rest2.takeWhile (fun c => !(c = '?'))
      let query := (rest2.drop path.length).drop 1
      { scheme := ⟨sch⟩, netloc := ⟨netloc⟩, path := ⟨path⟩, query := ⟨query⟩ }

/-- `urllib.parse.urlunparse` for the four fields used here: the netloc is
prefixed with `//`, the scheme suffixed with `:`, a non-empty query
appended after `?`. -/
def urlunparse (u : ParsedUrl) : String :=
  let url₀ := if u.netloc = "" then u.path else "//" ++ u.netloc ++ u.path
  let url₁ := if u.scheme = "" then url₀ else u.scheme ++ ":" ++ url₀
  if u.query = "" then url₁ else url₁ ++ "?" ++ u.query

/-- Join components with `/` (`"/".join`). -/
def joinSlash : List (List Char) → List Char
  | [] => []
  | [x] => x
  | x :: y :: xs => x ++ '/' :: joinSlash (y :: xs)

/-- `posixpath.normpath`: drop empty and `.` components, resolve `..`
against preceding components, keep one (or exactly two) leading slashes,
and render an empty result as `.`. -/
def normpath (p : List Char) : List Char :=
  if p = [] then ['.']
  else
    let initSlashes : ℕ :=
      if p.take 1 = ['/'] then
        if p.take 2 = ['/', '/'] ∧ ¬ p.take 3 = ['/', '/', '/'] then 2 else 1
      else 0
    let comps := (splitSlash p).filter fun c => decide (c ≠ [] ∧ c ≠ ['.'])
    let newComps := comps.foldl
      (fun acc comp =>
        if comp ≠ ['.', '.'] ∨ (initSlashes = 0 ∧ acc = []) ∨ acc.getLast? = some ['.', '.'] then
          acc ++ [comp]
        else if acc ≠ [] then acc.dropLast
        else acc) []
    let res := List.replicate initSlashes '/' ++ joinSlash newComps
    if res = [] then ['.'] else res

/-- `AppleConsts.CONTENT_SOURCE`. -/
def CONTENT_SOURCE : String := "https://audiocontentdownload.apple.com"

/-- `normalize_caching_server_url`: force scheme `http`, normalize the
proxy URL's own path (an empty or `.`/`/` path becomes empty), and attach
the `source=<origin-host>&sourceScheme=https` query to the proxy URL.
(`content_source or urlparse(...).netloc`: both `None` and `""` fall back
to the Apple host.) -/
def normalize_caching_server_url (url : String) (content_source : String := "") : String :=
  let cs := if content_source = "" then (urlparse CONTENT_SOURCE).netloc else content_source
  let query := "source=" ++ cs ++ "&sourceScheme=https"
  let parsed := urlparse url
  let path := normpath parsed.path.data
  let path2 : String := if path = ['.'] ∨ path = ['/'] then "" else ⟨path⟩
  urlunparse { scheme := "http", netloc := parsed.netloc, path := path2, query := query }

/-- `_generate_url_and_dest`'s URL: `f"{self.server}/{pkg.download_path}"`. -/
def generate_url (server : String) (download_path : String) : String :=
  server ++ "/" ++ download_path

/-- The proxy URL's own normalized path component, as
`normalize_caching_server_url` computes it. -/
def cleanServerPath (url : String) : String :=
  let path := normpath (urlparse url).path.data
  if path = ['.'] ∨ path = ['/'] then "" else ⟨path⟩

/-- C9 (counterexample).  For the proxy `https://10.0.0.1:49672` and the
package path `lp10_ms3_content_2016/foo.pkg`, the generated URL carries
the query attached to the proxy URL and the package path appended *after*
it — not the claim's path-then-query form. -/
theorem caching_url_query_not_after_path :
    generate_url (normalize_caching_server_url "https://10.0.0.1:49672")
        "lp10_ms3_content_2016/foo.pkg"
      = "http://10.0.0.1:49672?source=audiocontentdownload.apple.com&sourceScheme=https/lp10_ms3_content_2016/foo.pkg"
    ∧ generate_url (normalize_caching_server_url "https://10.0.0.1:49672")
        "lp10_ms3_content_2016/foo.pkg"
      ≠ "http://10.0.0.1:49672/lp10_ms3_content_2016/foo.pkg?source=audiocontentdownload.apple.com&sourceScheme=https" := by
  exact ⟨by decide, by decide⟩

/-- C9 (amended).  With a caching proxy active, every per-package URL is
`http://` plus the proxy host, the proxy's own normalized path, then the
`source=<origin-host>&sourceScheme=https` query, and only then the
appended package download path: the query string precedes the package
path, because it is attached to the server URL before
`_generate_url_and_dest` appends `/{download_path}`. -/
theorem caching_url_rewrite (url dlpath : String)
    (hn : (urlparse url).netloc ≠ "") :
    generate_url (normalize_caching_server_url url) dlpath
      = "http://" ++ (urlparse url).netloc ++ cleanServerPath url
        ++ "?source=audiocontentdownload.apple.com&sourceScheme=https"
        ++ "/" ++ dlpath := by
  have h1 : normalize_caching_server_url url
      = "http:" ++ ("//" ++ (urlparse url).netloc ++ cleanServerPath url) ++ "?"
        ++ "source=audiocontentdownload.apple.com&sourceScheme=https" := by
    simp only [normalize_caching_server_url, urlunparse]
    rw [if_neg hn]
    rfl
  rw [generate_url, h1,
    String.append_assoc ("http:" ++ ("//" ++ (urlparse url).netloc ++ cleanServerPath url))
      "?" "source=audiocontentdownload.apple.com&sourceScheme=https",
    ← String.append_assoc "http:" ("//" ++ (urlparse url).netloc) (cleanServerPath url),
    ← String.append_assoc "http:" "//" (urlparse url).netloc]
  rfl

/-- Witness for C9 (amended) at the concrete proxy URL. -/
theorem caching_url_rewrite_witness :
    generate_url (normalize_caching_server_url "https://10.0.0.1:49672")
        "lp10_ms3_content_2016/foo.pkg"
      = "http://" ++ (urlparse "https://10.0.0.1:49672").netloc
        ++ cleanServerPath "https://10.0.0.1:49672"
        ++ "?source=audiocontentdownload.apple.com&sourceScheme=https"
        ++ "/" ++ "lp10_ms3_content_2016/foo.pkg" :=
  caching_url_rewrite "https://10.0.0.1:49672" "lp10_ms3_content_2016/foo.pkg" (by decide)

/-- Witness for C7 (amended) at a legacy-marker download name. -/
theorem normalize_download_path_spec_witness :
    normalize_package_download_path ("../lp10_ms3_content_2013/foo.pkg".toList)
      = PATH_2013 ++ '/' :: pathBasename ("../lp10_ms3_content_2013/foo.pkg".toList)
    ∧ normalize_package_download_path (normalize_package_download_path
        ("../lp10_ms3_content_2013/foo.pkg".toList))
      = normalize_package_download_path ("../lp10_ms3_content_2013/foo.pkg".toList) :=
  ⟨normalize_download_path_spec.1 _ (by decide),
   normalize_download_path_spec.2.2 _ (by decide)⟩

